import Mathlib

set_option maxRecDepth 16384

/-!
# Verification of `kishash.py`

A shallow embedding of the single-module tool `kishash.py`, which embeds a
10-character secret key into a 10×128 hexadecimal text document and recovers
it from fixed per-line character offsets.

Modelling decisions:
* Python strings become `List Char`.
* The single file on disk becomes `FS := Option (List Char)` (`none` = absent).
* Randomness (`secrets.token_hex`) is parameterised by the byte list the
  secure source would produce; `token_hex` itself is the deterministic
  lowercase-hex encoding of those bytes, as in CPython.
* Raising an exception becomes returning `Except.error`; functions that touch
  the file thread the `FS` value explicitly.
* `Path.read_text` performs universal-newline translation (`\r\n` and `\r`
  become `\n`); `str.splitlines` splits on the Unicode line-boundary set.
  Both are modelled faithfully (`translateNewlines`, `splitlines`).
-/

/-- `POSITIONS` from the source: per-line offsets of the embedded key chars. -/
def POSITIONS : List Nat := [0, 4, 8, 16, 32, 64, 96, 112, 120, 127]

/-- `LINE_LENGTH` from the source. -/
def LINE_LENGTH : Nat := 128

/-- `NUM_LINES` from the source. -/
def NUM_LINES : Nat := 10

/-- Lowercase hex digit for a nibble, as CPython's `binascii.hexlify` emits:
codes 48..57 for 0..9 and 97..102 for 10..15. -/
def hexDigit (d : Nat) : Char :=
  if d < 10 then Char.ofNat (48 + d) else Char.ofNat (87 + d)

/-- `secrets.token_hex`, parameterised by the random bytes drawn:
each byte becomes two lowercase hex characters. -/
def token_hex (bytes : List Nat) : List Char :=
  bytes.flatMap (fun b => [hexDigit (b / 16), hexDigit (b % 16)])

/-- `generate_secret_key`: `secrets.token_hex(5)`, i.e. the hex encoding of
the 5 random bytes drawn. -/
def generate_secret_key (bytes : List Nat) : List Char :=
  token_hex bytes

/-- `random_hex_line`: `secrets.token_hex(LINE_LENGTH // 2)`, i.e. the hex
encoding of the 64 random bytes drawn. -/
def random_hex_line (bytes : List Nat) : List Char :=
  token_hex bytes

/-- The file system visible to the tool: the content of the one file path it
uses, or `none` when the file is absent. -/
abbrev FS := Option (List Char)

/-- Python slicing-splice `line[:pos] + c + line[pos+1:]` from
`write_file_with_key`. -/
def embedAt (line : List Char) (pos : Nat) (c : Char) : List Char :=
  line.take pos ++ [c] ++ line.drop (pos + 1)

/-- Python `"\n".join(lines)` (`str.join` semantics). -/
def pyJoin (sep : List Char) : List (List Char) → List Char
  | [] => []
  | [l] => l
  | l :: ls => l ++ sep ++ pyJoin sep ls

/-- The loop body of `write_file_with_key`: line `i` is a random hex line with
the character at `POSITIONS[i]` replaced by `secret_key[i]`. -/
def writeLines (secret_key : List Char) (fillers : List (List Nat)) : List (List Char) :=
  (List.range NUM_LINES).map (fun i =>
    embedAt (random_hex_line (fillers.getD i []))
      (POSITIONS.getD i 0) (secret_key.getD i ' '))

/-- `write_file_with_key`: validates the key length, builds the ten lines,
and writes them newline-joined with a trailing newline. `fillers` holds the
byte lists drawn by the ten `random_hex_line()` calls. -/
def write_file_with_key (secret_key : List Char) (fillers : List (List Nat))
    (fs : FS) : Except String Unit × FS :=
  if secret_key.length ≠ NUM_LINES then
    (Except.error "secret_key must be exactly 10 hex characters", fs)
  else
    (Except.ok (), some (pyJoin ['\n'] (writeLines secret_key fillers) ++ ['\n']))

/-- The Unicode line-boundary characters `str.splitlines` splits on. -/
def isLineBreak (c : Char) : Bool :=
  c == '\n' || c == '\r' || c == '\x0b' || c == '\x0c' ||
  c == '\x1c' || c == '\x1d' || c == '\x1e' || c == '\x85' ||
  c == '\u2028' || c == '\u2029'

/-- Universal-newline translation performed by `Path.read_text`:
`\r\n` and lone `\r` both become `\n`. -/
def translateNewlines : List Char → List Char
  | [] => []
  | [c] => if c = '\r' then ['\n'] else [c]
  | c :: c2 :: cs =>
    if c = '\r' then
      if c2 = '\n' then '\n' :: translateNewlines cs
      else '\n' :: translateNewlines (c2 :: cs)
    else c :: translateNewlines (c2 :: cs)

/-- Worker for `splitlines`: `acc` holds the current line reversed; a final
segment is emitted only when non-empty, as in Python. -/
def splitlinesAux (acc : List Char) : List Char → List (List Char)
  | [] => if acc.isEmpty then [] else [acc.reverse]
  | c :: cs =>
    if isLineBreak c then acc.reverse :: splitlinesAux [] cs
    else splitlinesAux (c :: acc) cs

/-- `str.splitlines` (on `\r`-free input; `read_text` has already translated
`\r\n` and `\r` to `\n` before the code calls it). -/
def splitlines (s : List Char) : List (List Char) :=
  splitlinesAux [] s

/-- `p.read_text(...).splitlines()` as the extractor sees it. -/
def pylines (content : List Char) : List (List Char) :=
  splitlines (translateNewlines content)

/-- The `for i, line in enumerate(content)` loop of `extract_key_from_file`:
checks each line length, collecting `line[POSITIONS[i]]`; the first bad line
raises. -/
def extractLoop : Nat → List (List Char) → Except String (List Char)
  | _, [] => Except.ok []
  | i, line :: rest =>
    if line.length ≠ LINE_LENGTH then
      Except.error "Line has the wrong number of characters."
    else
      (extractLoop (i + 1) rest).map
        (fun cs => line.getD (POSITIONS.getD i 0) ' ' :: cs)

/-- `extract_key_from_file`: fails if the file is absent or the line count is
wrong, then runs the per-line loop. The file system is threaded and returned
unchanged (the function only reads). -/
def extract_key_from_file (fs : FS) : Except String (List Char) × FS :=
  match fs with
  | none => (Except.error "File not found.", none)
  | some content =>
    let lines := pylines content
    if lines.length ≠ NUM_LINES then
      (Except.error "File must contain 10 lines.", some content)
    else
      (extractLoop 0 lines, some content)

/-- Outcome of `cmd_validate`, one constructor per console report it can end
with. -/
inductive ValidateResult where
  | error (e : String)
  | matched (extracted : List Char)
  | mismatch (extracted : List Char)
  | extractedOnly (extracted : List Char)
deriving DecidableEq

/-- Python truthiness of `args.key : Optional[str]`: `None` and the empty
string are falsy. -/
def truthy : Option (List Char) → Bool
  | none => false
  | some k => !k.isEmpty

/-- `cmd_validate`: extraction errors are caught and reported; otherwise the
extracted key is compared with the supplied key when `args.key` is truthy. -/
def cmd_validate (fs : FS) (key : Option (List Char)) : ValidateResult :=
  match (extract_key_from_file fs).1 with
  | Except.error e => ValidateResult.error e
  | Except.ok extracted =>
    if truthy key then
      if key.getD [] = extracted then ValidateResult.matched extracted
      else ValidateResult.mismatch extracted
    else ValidateResult.extractedOnly extracted

/-- `cmd_generate`: generates a key and writes the file; any exception from
`write_file_with_key` is not caught and propagates. -/
def cmd_generate (bytes : List Nat) (fillers : List (List Nat)) (fs : FS) :
    Except String FS :=
  match write_file_with_key (generate_secret_key bytes) fillers fs with
  | (Except.error e, _) => Except.error e
  | (Except.ok _, fs2) => Except.ok fs2

/-- The character test the spec's hex alphabet denotes: `0`–`9` or `a`–`f`. -/
def isHexChar (c : Char) : Bool :=
  ('0' ≤ c && c ≤ '9') || ('a' ≤ c && c ≤ 'f')

/-- The spec's description of a successful extraction: the character at offset
`POSITIONS[i]` of line `i`, concatenated over `i`. -/
def specExtract (ls : List (List Char)) : List Char :=
  (List.range ls.length).map (fun i => (ls.getD i []).getD (POSITIONS.getD i 0) ' ')

/-- Index-carrying form of `specExtract`, matching `extractLoop`'s recursion. -/
def extractVals : Nat → List (List Char) → List Char
  | _, [] => []
  | i, line :: rest => line.getD (POSITIONS.getD i 0) ' ' :: extractVals (i + 1) rest

/-- Equality of `Except` results is decidable, so claim instances can be
checked by evaluation. -/
instance {e a : Type} [DecidableEq e] [DecidableEq a] : DecidableEq (Except e a) :=
  fun x y =>
  match x, y with
  | Except.error e1, Except.error e2 =>
    decidable_of_iff (e1 = e2) (iff_of_eq (Except.error.injEq e1 e2)).symm
  | Except.error _, Except.ok _ => isFalse (fun hc => Except.noConfusion hc)
  | Except.ok _, Except.error _ => isFalse (fun hc => Except.noConfusion hc)
  | Except.ok a1, Except.ok a2 =>
    decidable_of_iff (a1 = a2) (iff_of_eq (Except.ok.injEq a1 a2)).symm

/-- All-zero filler bytes: one legitimate draw of the ten `token_hex(64)`
calls, used to instantiate theorems at concrete inputs. -/
def zeroFillers : List (List Nat) := List.replicate 10 (List.replicate 64 0)

/-- A concrete structurally valid document: ten lines of 128 `a`s. -/
def demoContent : List Char :=
  pyJoin ['\n'] (List.replicate 10 (List.replicate 128 'a')) ++ ['\n']

/-- A 10-character key whose last character is a newline. -/
def newlineKey : List Char := ['a', 'a', 'a', 'a', 'a', 'a', 'a', 'a', 'a', '\n']

/-! ## Basic character and line lemmas -/

theorem hexDigit_isHexChar : ∀ d < 16, isHexChar (hexDigit d) = true := by decide

theorem isHexChar_not_break (c : Char) (h : isHexChar c = true) :
    isLineBreak c = false := by
  by_contra hb
  rw [Bool.not_eq_false] at hb
  simp only [isLineBreak, Bool.or_eq_true, beq_iff_eq] at hb
  rcases hb with ((((((((h1 | h1) | h1) | h1) | h1) | h1) | h1) | h1) | h1) | h1 <;>
    subst h1 <;> exact absurd h (by decide)

theorem isHexChar_ne_cr (c : Char) (h : isHexChar c = true) : c ≠ '\r' := by
  intro hc
  subst hc
  exact absurd h (by decide)

theorem length_token_hex (bytes : List Nat) :
    (token_hex bytes).length = 2 * bytes.length := by
  induction bytes with
  | nil => rfl
  | cons b bs ih =>
    simp only [token_hex, List.flatMap_cons, List.length_append, List.length_cons,
      List.length_nil] at *
    omega

theorem mem_token_hex_isHexChar (bytes : List Nat) (hb : ∀ b ∈ bytes, b < 256)
    (c : Char) (hc : c ∈ token_hex bytes) : isHexChar c = true := by
  simp only [token_hex, List.mem_flatMap, List.mem_cons, List.not_mem_nil,
    or_false] at hc
  obtain ⟨b, hbmem, hcm⟩ := hc
  have h256 := hb b hbmem
  have hd : b / 16 < 16 := Nat.div_lt_of_lt_mul (by omega)
  have hm : b % 16 < 16 := Nat.mod_lt _ (by omega)
  rcases hcm with rfl | rfl
  · exact hexDigit_isHexChar _ hd
  · exact hexDigit_isHexChar _ hm

theorem length_embedAt (line : List Char) (pos : Nat) (c : Char)
    (h : pos < line.length) : (embedAt line pos c).length = line.length := by
  simp only [embedAt, List.length_append, List.length_take, List.length_cons,
    List.length_nil, List.length_drop]
  omega

theorem embedAt_getD_self (line : List Char) (pos : Nat) (c d : Char)
    (h : pos < line.length) : (embedAt line pos c).getD pos d = c := by
  have hlen : (line.take pos).length = pos := by
    simp only [List.length_take]
    omega
  rw [embedAt, List.append_assoc, List.getD_eq_getElem?_getD,
    List.getElem?_append_right (by omega), hlen, Nat.sub_self]
  simp

theorem embedAt_getD_ne (line : List Char) (pos j : Nat) (c d : Char)
    (hpos : pos < line.length) (hj : j < line.length) (hne : j ≠ pos) :
    (embedAt line pos c).getD j d = line.getD j d := by
  have hlen : (line.take pos).length = pos := by
    simp only [List.length_take]
    omega
  rcases Nat.lt_or_ge j pos with hlt | hge
  · rw [embedAt, List.append_assoc, List.getD_eq_getElem?_getD,
      List.getElem?_append_left (by omega), List.getElem?_take, if_pos hlt,
      List.getD_eq_getElem?_getD]
  · have hgt : pos < j := lt_of_le_of_ne hge (Ne.symm hne)
    rw [embedAt, List.append_assoc, List.getD_eq_getElem?_getD,
      List.getElem?_append_right (by omega), hlen,
      List.getElem?_append_right (by simp only [List.length_cons, List.length_nil]; omega),
      List.getElem?_drop]
    have harith : pos + 1 + (j - pos - ([c].length)) = j := by
      simp only [List.length_cons, List.length_nil]
      omega
    rw [harith, List.getD_eq_getElem?_getD]

theorem mem_embedAt (line : List Char) (pos : Nat) (k c : Char)
    (hc : c ∈ embedAt line pos k) : c ∈ line ∨ c = k := by
  simp only [embedAt, List.mem_append, List.mem_singleton] at hc
  rcases hc with (h | h) | h
  · exact Or.inl (List.mem_of_mem_take h)
  · exact Or.inr h
  · exact Or.inl (List.mem_of_mem_drop h)

/-! ## Newline translation and line splitting -/

theorem translateNewlines_cons_ne (c : Char) (cs : List Char) (h : c ≠ '\r') :
    translateNewlines (c :: cs) = c :: translateNewlines cs := by
  cases cs with
  | nil => simp [translateNewlines, h]
  | cons c2 cs2 => simp [translateNewlines, h]

theorem translateNewlines_eq_self (cs : List Char) (h : ∀ c ∈ cs, c ≠ '\r') :
    translateNewlines cs = cs := by
  induction cs with
  | nil => rfl
  | cons c cs2 ih =>
    rw [translateNewlines_cons_ne c cs2 (h c (List.mem_cons_self c cs2)),
      ih (fun x hx => h x (List.mem_cons_of_mem c hx))]

theorem splitlinesAux_line (l : List Char) (hl : ∀ c ∈ l, isLineBreak c = false) :
    ∀ acc rest : List Char,
      splitlinesAux acc (l ++ '\n' :: rest) =
        (acc.reverse ++ l) :: splitlinesAux [] rest := by
  induction l with
  | nil =>
    intro acc rest
    have hb : isLineBreak '\n' = true := by decide
    simp [splitlinesAux, hb]
  | cons c l2 ih =>
    intro acc rest
    have hc : isLineBreak c = false := hl c (List.mem_cons_self c l2)
    have ih2 := ih (fun x hx => hl x (List.mem_cons_of_mem c hx)) (c :: acc) rest
    simp only [List.cons_append, splitlinesAux, hc, Bool.false_eq_true, if_false,
      List.append_eq] at *
    rw [ih2]
    simp

theorem splitlines_pyJoin (ls : List (List Char)) (hne : ls ≠ [])
    (hl : ∀ l ∈ ls, ∀ c ∈ l, isLineBreak c = false) :
    splitlines (pyJoin ['\n'] ls ++ ['\n']) = ls := by
  induction ls with
  | nil => exact absurd rfl hne
  | cons l ls2 ih =>
    cases ls2 with
    | nil =>
      have h1 := splitlinesAux_line l (hl l (List.mem_cons_self l [])) [] []
      simp only [pyJoin, splitlines]
      simp only [List.singleton_append] at h1
      rw [h1]
      rfl
    | cons l2 ls3 =>
      have hlm : ∀ c ∈ l, isLineBreak c = false := hl l (List.mem_cons_self l (l2 :: ls3))
      have h1 := splitlinesAux_line l hlm [] (pyJoin ['\n'] (l2 :: ls3) ++ ['\n'])
      have ih2 := ih (List.cons_ne_nil l2 ls3)
        (fun x hx => hl x (List.mem_cons_of_mem l hx))
      simp only [pyJoin, splitlines, List.append_assoc, List.singleton_append,
        List.cons_append, List.nil_append, List.append_eq] at *
      rw [h1, ih2]
      simp

/-! ## The extraction loop -/

theorem extractLoop_ok (ls : List (List Char))
    (hl : ∀ l ∈ ls, l.length = LINE_LENGTH) :
    ∀ i, extractLoop i ls = Except.ok (extractVals i ls) := by
  induction ls with
  | nil => intro i; rfl
  | cons l rest ih =>
    intro i
    have h1 : l.length = LINE_LENGTH := hl l (List.mem_cons_self l rest)
    have ih2 := ih (fun x hx => hl x (List.mem_cons_of_mem l hx)) (i + 1)
    simp [extractLoop, h1, extractVals, ih2, Except.map]

theorem extractLoop_ok_iff (ls : List (List Char)) :
    ∀ i, (∃ k, extractLoop i ls = Except.ok k) ↔
      ∀ l ∈ ls, l.length = LINE_LENGTH := by
  induction ls with
  | nil => intro i; simp [extractLoop]
  | cons l rest ih =>
    intro i
    constructor
    · rintro ⟨k, hk⟩
      by_cases h1 : l.length = LINE_LENGTH
      · rw [extractLoop, if_neg (fun hc => hc h1)] at hk
        cases hrec : extractLoop (i + 1) rest with
        | error e => rw [hrec] at hk; simp [Except.map] at hk
        | ok ks =>
          intro x hx
          rcases List.mem_cons.mp hx with rfl | hm
          · exact h1
          · exact ((ih (i + 1)).mp ⟨ks, hrec⟩) x hm
      · rw [extractLoop, if_pos h1] at hk
        exact absurd hk (by simp)
    · intro h
      exact ⟨extractVals i (l :: rest), extractLoop_ok (l :: rest) h i⟩

theorem extractVals_eq_map (ls : List (List Char)) :
    ∀ i, extractVals i ls =
      (List.range ls.length).map
        (fun j => (ls.getD j []).getD (POSITIONS.getD (i + j) 0) ' ') := by
  induction ls with
  | nil => intro i; rfl
  | cons l rest ih =>
    intro i
    rw [extractVals, List.length_cons, List.range_succ_eq_map, List.map_cons,
      List.map_map]
    have hhead : ((l :: rest).getD 0 []).getD (POSITIONS.getD (i + 0) 0) ' ' =
        l.getD (POSITIONS.getD i 0) ' ' := by simp
    rw [hhead]
    congr 1
    rw [ih (i + 1)]
    refine List.map_congr_left fun j hj => ?_
    have harith : i + (j + 1) = i + 1 + j := by omega
    simp [Function.comp, harith]

theorem extractVals_zero_eq_specExtract (ls : List (List Char)) :
    extractVals 0 ls = specExtract ls := by
  rw [extractVals_eq_map ls 0, specExtract]
  simp

theorem map_getD_range (l : List Char) (d : Char) :
    (List.range l.length).map (fun i => l.getD i d) = l := by
  induction l with
  | nil => rfl
  | cons a t ih =>
    rw [List.length_cons, List.range_succ_eq_map, List.map_cons, List.map_map]
    have htail : List.map ((fun i => (a :: t).getD i d) ∘ Nat.succ)
        (List.range t.length) = List.map (fun i => t.getD i d) (List.range t.length) :=
      List.map_congr_left fun j hj => by simp [Function.comp]
    rw [htail, ih]
    simp

/-! ## Lines produced by the embedder -/

theorem POSITIONS_lt : ∀ i < NUM_LINES, POSITIONS.getD i 0 < LINE_LENGTH := by decide

theorem length_writeLines (key : List Char) (fillers : List (List Nat)) :
    (writeLines key fillers).length = NUM_LINES := by
  simp [writeLines]

theorem writeLines_getD (key : List Char) (fillers : List (List Nat)) (i : Nat)
    (hi : i < NUM_LINES) :
    (writeLines key fillers).getD i [] =
      embedAt (random_hex_line (fillers.getD i []))
        (POSITIONS.getD i 0) (key.getD i ' ') := by
  rw [writeLines, List.getD_eq_getElem?_getD, List.getElem?_map,
    List.getElem?_range hi]
  rfl

theorem getD_mem_of_lt {α : Type} (l : List α) (d : α) (i : Nat)
    (hi : i < l.length) : l.getD i d ∈ l := by
  rw [List.getD_eq_getElem?_getD, List.getElem?_eq_getElem hi]
  exact List.getElem_mem hi

theorem writeLines_line_length (key : List Char) (fillers : List (List Nat))
    (hfl : fillers.length = NUM_LINES) (hf64 : ∀ b ∈ fillers, b.length = 64)
    (l : List Char) (hl : l ∈ writeLines key fillers) : l.length = LINE_LENGTH := by
  simp only [writeLines, List.mem_map, List.mem_range] at hl
  obtain ⟨i, hi, rfl⟩ := hl
  have h64 : (fillers.getD i []).length = 64 :=
    hf64 _ (getD_mem_of_lt fillers [] i (by omega))
  have hlen : (random_hex_line (fillers.getD i [])).length = LINE_LENGTH := by
    rw [random_hex_line, length_token_hex, h64]
    decide
  rw [length_embedAt _ _ _ (by rw [hlen]; exact POSITIONS_lt i hi), hlen]

theorem writeLines_no_break (key : List Char) (fillers : List (List Nat))
    (hk : key.length = NUM_LINES)
    (hkey : ∀ c ∈ key, isLineBreak c = false)
    (hfl : fillers.length = NUM_LINES)
    (hf256 : ∀ b ∈ fillers, ∀ x ∈ b, x < 256)
    (l : List Char) (hl : l ∈ writeLines key fillers)
    (c : Char) (hc : c ∈ l) : isLineBreak c = false := by
  simp only [writeLines, List.mem_map, List.mem_range] at hl
  obtain ⟨i, hi, rfl⟩ := hl
  rcases mem_embedAt _ _ _ _ hc with hm | rfl
  · exact isHexChar_not_break c
      (mem_token_hex_isHexChar _
        (hf256 _ (getD_mem_of_lt fillers [] i (by omega))) c hm)
  · have hmem : key.getD i ' ' ∈ key := by
      rw [List.getD_eq_getElem?_getD, List.getElem?_eq_getElem (by omega)]
      exact List.getElem_mem (by omega)
    exact hkey _ hmem

theorem mem_pyJoin (sep : List Char) (ls : List (List Char)) (c : Char)
    (hc : c ∈ pyJoin sep ls) : (∃ l ∈ ls, c ∈ l) ∨ c ∈ sep := by
  induction ls with
  | nil => cases hc
  | cons l ls2 ih =>
    cases ls2 with
    | nil =>
      exact Or.inl ⟨l, List.mem_cons_self l [], by simpa [pyJoin] using hc⟩
    | cons l2 ls3 =>
      simp only [pyJoin, List.mem_append] at hc
      rcases hc with (h | h) | h
      · exact Or.inl ⟨l, List.mem_cons_self l (l2 :: ls3), h⟩
      · exact Or.inr h
      · rcases ih h with ⟨l3, hl3, hc3⟩ | h2
        · exact Or.inl ⟨l3, List.mem_cons_of_mem l hl3, hc3⟩
        · exact Or.inr h2

/-- The round trip, for any key free of line-boundary characters. -/
theorem roundtrip_core (key : List Char) (fillers : List (List Nat))
    (hk : key.length = NUM_LINES)
    (hkey : ∀ c ∈ key, isLineBreak c = false)
    (hfl : fillers.length = NUM_LINES)
    (hf64 : ∀ b ∈ fillers, b.length = 64)
    (hf256 : ∀ b ∈ fillers, ∀ x ∈ b, x < 256)
    (fs : FS) :
    (write_file_with_key key fillers fs).1 = Except.ok () ∧
    (write_file_with_key key fillers fs).2 =
      some (pyJoin ['\n'] (writeLines key fillers) ++ ['\n']) ∧
    (extract_key_from_file (write_file_with_key key fillers fs).2).1 =
      Except.ok key := by
  have hw : write_file_with_key key fillers fs =
      (Except.ok (), some (pyJoin ['\n'] (writeLines key fillers) ++ ['\n'])) := by
    rw [write_file_with_key, if_neg (fun hc => hc hk)]
  refine ⟨by rw [hw], by rw [hw], ?_⟩
  rw [hw]
  set lines := writeLines key fillers with hlines
  set content := pyJoin ['\n'] lines ++ ['\n'] with hcontent
  have hnobreak : ∀ l ∈ lines, ∀ c ∈ l, isLineBreak c = false :=
    fun l hl c hc => writeLines_no_break key fillers hk hkey hfl hf256 l hl c hc
  have hnocr : ∀ c ∈ content, c ≠ '\r' := by
    intro c hc
    rw [hcontent, List.mem_append] at hc
    rcases hc with h | h
    · rcases mem_pyJoin _ _ _ h with ⟨l, hl, hcl⟩ | hsep
      · intro heq
        have := hnobreak l hl c hcl
        rw [heq] at this
        exact absurd this (by decide)
      · simp only [List.mem_singleton] at hsep
        subst hsep
        decide
    · simp only [List.mem_singleton] at h
      subst h
      decide
  have hlenlines : lines.length = NUM_LINES := length_writeLines key fillers
  have hpylines : pylines content = lines := by
    rw [pylines, translateNewlines_eq_self content hnocr, hcontent]
    exact splitlines_pyJoin lines
      (by rw [← List.length_pos_iff_ne_nil, hlenlines]; decide) hnobreak
  have hlinelen : ∀ l ∈ lines, l.length = LINE_LENGTH :=
    fun l hl => writeLines_line_length key fillers hfl hf64 l hl
  rw [extract_key_from_file]
  simp only [hpylines, hlenlines]
  rw [if_neg (fun hc => hc rfl)]
  rw [extractLoop_ok lines hlinelen 0, extractVals_eq_map lines 0]
  have hval : ∀ j ∈ List.range lines.length,
      (lines.getD j []).getD (POSITIONS.getD (0 + j) 0) ' ' = key.getD j ' ' := by
    intro j hj
    rw [List.mem_range] at hj
    rw [Nat.zero_add, hlines,
      writeLines_getD key fillers j (by omega)]
    have h64 : (fillers.getD j []).length = 64 :=
      hf64 _ (getD_mem_of_lt fillers [] j (by omega))
    have hrl : (random_hex_line (fillers.getD j [])).length = LINE_LENGTH := by
      rw [random_hex_line, length_token_hex, h64]
      decide
    exact embedAt_getD_self _ _ _ _
      (by rw [hrl]; exact POSITIONS_lt j (by rw [hlenlines] at hj; exact hj))
  rw [List.map_congr_left hval]
  rw [hlenlines, ← hk, map_getD_range]

/-! ## Claim theorems -/

/-- C1: for every 10-character hexadecimal key, and any bytes the ten
`random_hex_line()` draws may produce, extracting from the document written by
`write_file_with_key` returns the original key. -/
theorem extract_write_roundtrip (key : List Char) (fillers : List (List Nat))
    (fs : FS) (hk : key.length = NUM_LINES)
    (hhex : ∀ c ∈ key, isHexChar c = true)
    (hfl : fillers.length = NUM_LINES)
    (hf64 : ∀ b ∈ fillers, b.length = 64)
    (hf256 : ∀ b ∈ fillers, ∀ x ∈ b, x < 256) :
    (extract_key_from_file (write_file_with_key key fillers fs).2).1 =
      Except.ok key :=
  (roundtrip_core key fillers hk
    (fun c hc => isHexChar_not_break c (hhex c hc)) hfl hf64 hf256 fs).2.2

/-- Witness for C1 at the spec's example key `"0123456789"`. -/
theorem extract_write_roundtrip_witness :
    (extract_key_from_file (write_file_with_key
        ['0', '1', '2', '3', '4', '5', '6', '7', '8', '9'] zeroFillers none).2).1 =
      Except.ok ['0', '1', '2', '3', '4', '5', '6', '7', '8', '9'] :=
  extract_write_roundtrip _ zeroFillers none (by decide) (by decide) (by decide)
    (by decide) (by decide)

/-- C3: with a 10-character key, the written document is the ten lines joined
by newlines plus a trailing newline; each line is 128 characters, carries
`key[i]` at offset `POSITIONS[i]`, and is a lowercase hex digit everywhere
else. -/
theorem write_file_with_key_structure (key : List Char)
    (fillers : List (List Nat)) (fs : FS) (hk : key.length = NUM_LINES)
    (hfl : fillers.length = NUM_LINES)
    (hf64 : ∀ b ∈ fillers, b.length = 64)
    (hf256 : ∀ b ∈ fillers, ∀ x ∈ b, x < 256) :
    ∃ lines : List (List Char),
      (write_file_with_key key fillers fs).2 =
        some (pyJoin ['\n'] lines ++ ['\n']) ∧
      lines.length = NUM_LINES ∧
      (∀ l ∈ lines, l.length = LINE_LENGTH) ∧
      (∀ i < NUM_LINES,
        (lines.getD i []).getD (POSITIONS.getD i 0) ' ' = key.getD i ' ') ∧
      (∀ i < NUM_LINES, ∀ j < LINE_LENGTH, j ≠ POSITIONS.getD i 0 →
        isHexChar ((lines.getD i []).getD j ' ') = true) := by
  refine ⟨writeLines key fillers, ?_, length_writeLines key fillers,
    fun l hl => writeLines_line_length key fillers hfl hf64 l hl, ?_, ?_⟩
  · rw [write_file_with_key, if_neg (fun hc => hc hk)]
  · intro i hi
    rw [writeLines_getD key fillers i hi]
    have h64 := hf64 _ (getD_mem_of_lt fillers [] i (by omega))
    have hrl : (random_hex_line (fillers.getD i [])).length = LINE_LENGTH := by
      rw [random_hex_line, length_token_hex, h64]
      decide
    exact embedAt_getD_self _ _ _ _ (by rw [hrl]; exact POSITIONS_lt i hi)
  · intro i hi j hj hne
    rw [writeLines_getD key fillers i hi]
    have h64 := hf64 _ (getD_mem_of_lt fillers [] i (by omega))
    have hrl : (random_hex_line (fillers.getD i [])).length = LINE_LENGTH := by
      rw [random_hex_line, length_token_hex, h64]
      decide
    have hpos : POSITIONS.getD i 0 < (random_hex_line (fillers.getD i [])).length := by
      rw [hrl]
      exact POSITIONS_lt i hi
    have hjlt : j < (random_hex_line (fillers.getD i [])).length := by
      rw [hrl]
      exact hj
    rw [embedAt_getD_ne _ _ _ _ _ hpos hjlt hne]
    have hmem : (random_hex_line (fillers.getD i [])).getD j ' ' ∈
        random_hex_line (fillers.getD i []) :=
      getD_mem_of_lt _ ' ' j hjlt
    exact mem_token_hex_isHexChar _
      (hf256 _ (getD_mem_of_lt fillers [] i (by omega))) _ hmem

/-- Witness for C3 at the key `"0123456789"` and all-zero filler bytes. -/
theorem write_file_with_key_structure_witness :
    ∃ lines : List (List Char),
      (write_file_with_key ['0', '1', '2', '3', '4', '5', '6', '7', '8', '9']
          zeroFillers none).2 = some (pyJoin ['\n'] lines ++ ['\n']) ∧
      lines.length = NUM_LINES ∧
      (∀ l ∈ lines, l.length = LINE_LENGTH) ∧
      (∀ i < NUM_LINES,
        (lines.getD i []).getD (POSITIONS.getD i 0) ' ' =
          ['0', '1', '2', '3', '4', '5', '6', '7', '8', '9'].getD i ' ') ∧
      (∀ i < NUM_LINES, ∀ j < LINE_LENGTH, j ≠ POSITIONS.getD i 0 →
        isHexChar ((lines.getD i []).getD j ' ') = true) :=
  write_file_with_key_structure _ zeroFillers none (by decide) (by decide)
    (by decide) (by decide)

/-- C4: the embedder raises exactly when the key length differs from
`NUM_LINES`; with a length-10 key it returns normally and writes the file. -/
theorem write_file_with_key_error_iff (key : List Char)
    (fillers : List (List Nat)) (fs : FS) :
    ((∃ e, (write_file_with_key key fillers fs).1 = Except.error e) ↔
      key.length ≠ NUM_LINES) ∧
    (key.length = NUM_LINES →
      (write_file_with_key key fillers fs).1 = Except.ok () ∧
      ∃ c, (write_file_with_key key fillers fs).2 = some c) := by
  constructor
  · constructor
    · rintro ⟨e, he⟩ hk
      rw [write_file_with_key, if_neg (fun hc => hc hk)] at he
      exact Except.noConfusion he
    · intro hk
      rw [write_file_with_key, if_pos hk]
      exact ⟨_, rfl⟩
  · intro hk
    rw [write_file_with_key, if_neg (fun hc => hc hk)]
    exact ⟨rfl, _, rfl⟩

/-- Witness for C4: the length-10 key is accepted, a length-3 key rejected. -/
theorem write_file_with_key_error_iff_witness :
    (write_file_with_key ['0', '1', '2', '3', '4', '5', '6', '7', '8', '9']
        zeroFillers none).1 = Except.ok () ∧
    (∃ e, (write_file_with_key ['a', 'b', 'c'] zeroFillers none).1 =
      Except.error e) :=
  ⟨((write_file_with_key_error_iff _ zeroFillers none).2 (by decide)).1,
   (write_file_with_key_error_iff ['a', 'b', 'c'] zeroFillers none).1.mpr
     (by decide)⟩

/-- C5: the key generator returns exactly 10 lowercase hexadecimal
characters whenever the secure source hands it its 5 random bytes. -/
theorem generate_secret_key_spec (bytes : List Nat) (h5 : bytes.length = 5)
    (h256 : ∀ b ∈ bytes, b < 256) :
    (generate_secret_key bytes).length = 10 ∧
    ∀ c ∈ generate_secret_key bytes, isHexChar c = true := by
  constructor
  · rw [generate_secret_key, length_token_hex, h5]
  · exact fun c hc => mem_token_hex_isHexChar bytes h256 c hc

/-- Witness for C5 at a concrete draw of 5 bytes. -/
theorem generate_secret_key_spec_witness :
    (generate_secret_key [0, 1, 2, 3, 255]).length = 10 ∧
    ∀ c ∈ generate_secret_key [0, 1, 2, 3, 255], isHexChar c = true :=
  generate_secret_key_spec _ (by decide) (by decide)

/-- C2: extraction succeeds exactly on a present file whose line split has
exactly 10 lines, each of length 128; on success it returns, for i = 0..9,
the character at offset `POSITIONS[i]` of line i, concatenated. -/
theorem extract_key_from_file_spec (fs : FS) :
    ((∃ k, (extract_key_from_file fs).1 = Except.ok k) ↔
      ∃ content, fs = some content ∧ (pylines content).length = NUM_LINES ∧
        ∀ l ∈ pylines content, l.length = LINE_LENGTH) ∧
    (∀ content, fs = some content → (pylines content).length = NUM_LINES →
      (∀ l ∈ pylines content, l.length = LINE_LENGTH) →
      (extract_key_from_file fs).1 =
        Except.ok (specExtract (pylines content))) := by
  constructor
  · constructor
    · rintro ⟨k, hk⟩
      cases fs with
      | none => exact absurd hk (by simp [extract_key_from_file])
      | some content =>
        refine ⟨content, rfl, ?_⟩
        simp only [extract_key_from_file] at hk
        split at hk
        · exact absurd hk (by simp)
        · next hlen =>
          rw [not_ne_iff] at hlen
          exact ⟨hlen, (extractLoop_ok_iff (pylines content) 0).mp ⟨k, hk⟩⟩
    · rintro ⟨content, rfl, hlen, hll⟩
      exact ⟨specExtract (pylines content), by
        simp only [extract_key_from_file]
        rw [if_neg (fun hc => hc hlen), extractLoop_ok _ hll 0,
          extractVals_zero_eq_specExtract]⟩
  · rintro content rfl hlen hll
    simp only [extract_key_from_file]
    rw [if_neg (fun hc => hc hlen), extractLoop_ok _ hll 0,
      extractVals_zero_eq_specExtract]

/-- Witness for C2 on the concrete valid document of all-`a` lines. -/
theorem extract_key_from_file_spec_witness :
    (extract_key_from_file (some demoContent)).1 =
      Except.ok (List.replicate 10 'a') := by
  have h := (extract_key_from_file_spec (some demoContent)).2 demoContent rfl
    (by decide) (by decide)
  rw [h]
  decide

/-- C6 counterexample: with a valid file and the supplied key the empty
string — which differs from the extracted key — `cmd_validate` reports
extraction-only, not the mismatch the claim requires of differing strings. -/
theorem cmd_validate_empty_key_cex :
    ([] : List Char) ≠ List.replicate 10 'a' ∧
    (extract_key_from_file (some demoContent)).1 =
      Except.ok (List.replicate 10 'a') ∧
    cmd_validate (some demoContent) (some []) =
      ValidateResult.extractedOnly (List.replicate 10 'a') := by
  decide

/-- C6 (amended): when extraction succeeds, a supplied non-empty key is
compared by exact string equality — match iff equal, mismatch iff different —
and extraction-only is reported when the key is absent or empty. -/
theorem cmd_validate_compare_spec (fs : FS) (k extracted : List Char)
    (hx : (extract_key_from_file fs).1 = Except.ok extracted) :
    (k ≠ [] → cmd_validate fs (some k) =
      (if k = extracted then ValidateResult.matched extracted
       else ValidateResult.mismatch extracted)) ∧
    cmd_validate fs none = ValidateResult.extractedOnly extracted ∧
    cmd_validate fs (some []) = ValidateResult.extractedOnly extracted := by
  refine ⟨fun hk => ?_, ?_, ?_⟩
  · simp only [cmd_validate, hx]
    cases k with
    | nil => exact absurd rfl hk
    | cons a t => simp [truthy]
  · simp only [cmd_validate, hx]
    rfl
  · simp only [cmd_validate, hx]
    rfl

/-- Witness for C6's amended theorem: a wrong non-empty key is a mismatch. -/
theorem cmd_validate_compare_spec_witness :
    cmd_validate (some demoContent) (some ['b']) =
      ValidateResult.mismatch (List.replicate 10 'a') := by
  have h := (cmd_validate_compare_spec (some demoContent) ['b']
    (List.replicate 10 'a') (by decide)).1 (by decide)
  rw [h]
  decide

/-- C7: on the validate path every extraction error is caught and turned into
a printed error report with a normal return, while on the generate path an
error raised by `write_file_with_key` propagates out of `cmd_generate`. -/
theorem error_handling_paths :
    (∀ (fs : FS) (key : Option (List Char)) (e : String),
      (extract_key_from_file fs).1 = Except.error e →
      cmd_validate fs key = ValidateResult.error e) ∧
    (∀ (bytes : List Nat) (fillers : List (List Nat)) (fs : FS) (e : String),
      (write_file_with_key (generate_secret_key bytes) fillers fs).1 =
        Except.error e →
      cmd_generate bytes fillers fs = Except.error e) := by
  constructor
  · intro fs key e he
    simp only [cmd_validate, he]
  · intro bytes fillers fs e he
    have hw : write_file_with_key (generate_secret_key bytes) fillers fs =
        (Except.error e,
          (write_file_with_key (generate_secret_key bytes) fillers fs).2) :=
      Prod.ext he rfl
    rw [cmd_generate, hw]

/-- Witness for C7: a missing file is reported on validate; an empty byte
draw gives a short key whose length error escapes generate. -/
theorem error_handling_paths_witness :
    cmd_validate none none = ValidateResult.error "File not found." ∧
    cmd_generate [] [] none =
      Except.error "secret_key must be exactly 10 hex characters" :=
  ⟨error_handling_paths.1 none none _ rfl,
   error_handling_paths.2 [] [] none _ (by decide)⟩

/-- C8: extraction returns the file system unchanged — it only reads — and a
successful embed is what creates or overwrites the file's content. -/
theorem extract_read_only :
    (∀ fs : FS, (extract_key_from_file fs).2 = fs) ∧
    (∀ (key : List Char) (fillers : List (List Nat)) (fs : FS),
      (write_file_with_key key fillers fs).1 = Except.ok () →
      (write_file_with_key key fillers fs).2 =
        some (pyJoin ['\n'] (writeLines key fillers) ++ ['\n'])) := by
  constructor
  · intro fs
    cases fs with
    | none => rfl
    | some content =>
      simp only [extract_key_from_file]
      split <;> rfl
  · intro key fillers fs hok
    by_cases hk : key.length = NUM_LINES
    · rw [write_file_with_key, if_neg (fun hc => hc hk)]
    · rw [write_file_with_key, if_pos hk] at hok
      exact absurd hok (by simp)

/-- Witness for C8 at the concrete valid document and example key. -/
theorem extract_read_only_witness :
    (extract_key_from_file (some demoContent)).2 = some demoContent ∧
    (write_file_with_key ['0', '1', '2', '3', '4', '5', '6', '7', '8', '9']
        zeroFillers none).2 =
      some (pyJoin ['\n']
        (writeLines ['0', '1', '2', '3', '4', '5', '6', '7', '8', '9']
          zeroFillers) ++ ['\n']) :=
  ⟨extract_read_only.1 (some demoContent),
   extract_read_only.2 _ zeroFillers none (by decide)⟩

/-- C9 counterexample: a 10-character key ending in a newline is accepted and
embedded verbatim, but extraction does not return it — the claim's "extraction
returns them back" fails for such characters. -/
theorem write_newline_key_cex :
    newlineKey.length = 10 ∧
    (write_file_with_key newlineKey zeroFillers none).1 = Except.ok () ∧
    (extract_key_from_file
        (write_file_with_key newlineKey zeroFillers none).2).1 ≠
      Except.ok newlineKey := by
  decide

/-- C9 (amended): the embedder validates only the key's length, never its
alphabet: any 10-character key is accepted and embedded verbatim at the fixed
positions, and for keys free of line-boundary characters extraction returns
the key. -/
theorem write_embed_verbatim_roundtrip (key : List Char)
    (fillers : List (List Nat)) (fs : FS) (hk : key.length = NUM_LINES)
    (hkey : ∀ c ∈ key, isLineBreak c = false)
    (hfl : fillers.length = NUM_LINES)
    (hf64 : ∀ b ∈ fillers, b.length = 64)
    (hf256 : ∀ b ∈ fillers, ∀ x ∈ b, x < 256) :
    (write_file_with_key key fillers fs).1 = Except.ok () ∧
    (∀ i < NUM_LINES,
      ((writeLines key fillers).getD i []).getD (POSITIONS.getD i 0) ' ' =
        key.getD i ' ') ∧
    (extract_key_from_file (write_file_with_key key fillers fs).2).1 =
      Except.ok key := by
  obtain ⟨h1, h2, h3⟩ := roundtrip_core key fillers hk hkey hfl hf64 hf256 fs
  refine ⟨h1, ?_, h3⟩
  intro i hi
  rw [writeLines_getD key fillers i hi]
  have h64 := hf64 _ (getD_mem_of_lt fillers [] i (by omega))
  have hrl : (random_hex_line (fillers.getD i [])).length = LINE_LENGTH := by
    rw [random_hex_line, length_token_hex, h64]
    decide
  exact embedAt_getD_self _ _ _ _ (by rw [hrl]; exact POSITIONS_lt i hi)

/-- Witness for C9's amended theorem at a key outside the hex alphabet. -/
theorem write_embed_verbatim_roundtrip_witness :
    (extract_key_from_file (write_file_with_key
        ['z', 'z', 'z', 'z', 'z', 'z', 'z', 'z', 'z', 'z'] zeroFillers
        none).2).1 =
      Except.ok ['z', 'z', 'z', 'z', 'z', 'z', 'z', 'z', 'z', 'z'] :=
  (write_embed_verbatim_roundtrip _ zeroFillers none (by decide) (by decide)
    (by decide) (by decide) (by decide)).2.2

/-- C10: supplying the empty string as the comparison key behaves exactly
like supplying no key: the comparison branch requires a truthy (non-empty)
key, so the result is extraction-only, never a mismatch. -/
theorem cmd_validate_empty_eq_none :
    (∀ fs : FS, cmd_validate fs (some []) = cmd_validate fs none) ∧
    (∀ (fs : FS) (k : List Char),
      (extract_key_from_file fs).1 = Except.ok k →
      cmd_validate fs (some []) = ValidateResult.extractedOnly k) := by
  constructor
  · intro fs
    cases h : (extract_key_from_file fs).1 with
    | error e => simp [cmd_validate, h]
    | ok k => simp [cmd_validate, h, truthy]
  · intro fs k hk
    simp only [cmd_validate, hk]
    rfl

/-- Witness for C10 on the concrete valid document. -/
theorem cmd_validate_empty_eq_none_witness :
    cmd_validate (some demoContent) (some []) =
      ValidateResult.extractedOnly (List.replicate 10 'a') :=
  cmd_validate_empty_eq_none.2 (some demoContent) _ (by decide)
